import Mathlib

/-!
A shallow embedding of the Static Code Intelligence Engine of the
CodeExplorer repository (`server/app/services/code_analyzer.py` and
`server/app/services/architecture_service.py`), together with theorems
settling the specification claims about it.

Paths are POSIX-style strings as produced by `str(Path.relative_to(...))`
on Linux. Python dicts are modelled as association lists where assignment
replaces the value of an existing key in place and otherwise appends,
matching Python dict insertion-order semantics.
-/

namespace CodeExplorer

/-- First-match association-list lookup (Python `d[k]` / `d.get(k)`). -/
def alookup {α β : Type} [DecidableEq α] (k : α) : List (α × β) → Option β
  | [] => none
  | p :: ps => if p.1 = k then some p.2 else alookup k ps

/-- Python `d[k] = v`: replace in place if the key exists, else append. -/
def dictInsert {α β : Type} [DecidableEq α] (m : List (α × β)) (k : α) (v : β) :
    List (α × β) :=
  if (alookup k m).isSome then m.map (fun p => if p.1 = k then (k, v) else p)
  else m ++ [(k, v)]

/-- Perform a sequence of dict assignments in order. -/
def insertAll {α β : Type} [DecidableEq α] (m : List (α × β)) (kvs : List (α × β)) :
    List (α × β) :=
  kvs.foldl (fun m kv => dictInsert m kv.1 kv.2) m

/-! ### String primitives

Character-level reimplementations of the Python `str` operations the
analyzer uses.  These are structurally recursive so that concrete runs
reduce inside the kernel; each mirrors the Python operation named in its
doc string. -/

/-- `s.split(c)` for a one-character separator. -/
def splitCharAux (c : Char) : List Char → List Char → List (List Char)
  | [], acc => [acc.reverse]
  | x :: xs, acc =>
    if x = c then acc.reverse :: splitCharAux c xs []
    else splitCharAux c xs (x :: acc)

/-- `s.split(c)` for a one-character separator. -/
def strSplit (c : Char) (s : String) : List String :=
  (splitCharAux c s.toList []).map String.mk

/-- `sep.join(parts)`. -/
def strJoin (sep : String) : List String → String
  | [] => ""
  | [x] => x
  | x :: xs => x ++ sep ++ strJoin sep xs

/-- `s.startswith(pre)`. -/
def strStartsWith (s pre : String) : Bool := pre.toList.isPrefixOf s.toList

/-- `s.endswith(suf)`. -/
def strEndsWith (s suf : String) : Bool := suf.toList.isSuffixOf s.toList

/-- `s[n:]` (character based). -/
def strDrop (s : String) (n : Nat) : String := String.mk (s.toList.drop n)

/-- `s[:n]` (character based). -/
def strTake (s : String) (n : Nat) : String := String.mk (s.toList.take n)

/-- ASCII `c.lower()` for one character. -/
def charLower (c : Char) : Char :=
  if 65 ≤ c.toNat ∧ c.toNat ≤ 90 then Char.ofNat (c.toNat + 32) else c

/-- `s.lower()` (ASCII). -/
def strLower (s : String) : String := String.mk (s.toList.map charLower)

/-! ### Path helpers (pathlib / str operations used by the analyzer) -/

/-- Python `s.replace('\\', '/')`. -/
def normSlash (s : String) : String :=
  String.mk (s.toList.map (fun c => if c = Char.ofNat 92 then Char.ofNat 47 else c))

/-- `str(Path(p).parent)` for a relative POSIX path. -/
def parentStr (p : String) : String :=
  let parts := strSplit '/' p
  if parts.length ≤ 1 then "." else strJoin "/" parts.dropLast

/-- Last path segment (`p.split('/')[-1]`, pathlib `.name`). -/
def lastSegD (p : String) : String := (strSplit '/' p).getLastD ""

/-- Index of the last `'.'` in a character list, if any (`str.rfind('.')`). -/
def lastDotIdx (l : List Char) : Option Nat :=
  match l.reverse.findIdx? (· = '.') with
  | some j => some (l.length - 1 - j)
  | none => none

/-- pathlib stem rule applied to a bare name: drop the last suffix, where a
suffix requires a dot at index `i` with `0 < i < len - 1`. -/
def stemOfName (name : String) : String :=
  let l := name.toList
  match lastDotIdx l with
  | some i => if 0 < i ∧ i < l.length - 1 then String.mk (l.take i) else name
  | none => name

/-- pathlib suffix rule applied to a bare name (`Path(name).suffix`). -/
def suffixOfName (name : String) : String :=
  let l := name.toList
  match lastDotIdx l with
  | some i => if 0 < i ∧ i < l.length - 1 then String.mk (l.drop i) else ""
  | none => ""

/-- `Path(p).stem`. -/
def stemOf (p : String) : String := stemOfName (lastSegD p)

/-- `Path(p).suffix`. -/
def suffixOf (p : String) : String := suffixOfName (lastSegD p)

/-- `str(Path(p).with_suffix(''))`: remove the last suffix of the last segment. -/
def withSuffixEmpty (p : String) : String :=
  let parts := strSplit '/' p
  strJoin "/" (parts.dropLast ++ [stemOfName (parts.getLastD "")])

/-! ### Reference Resolver (`_build_file_map`, `_resolve_import`,
`_build_file_dependencies` in `code_analyzer.py`) -/

/-- The dict assignments `_build_file_map` performs for one analyzed file
(first loop of the function), in source order.  `partial` in the source is
the suffix path obtained by dropping the first `i` segments. -/
def fileMapKeysFor (fp : String) : List (String × String) :=
  let normalized := normSlash fp
  let stem := stemOf normalized
  let parentRaw := parentStr normalized
  let parent := if parentRaw = "." then "" else normSlash parentRaw
  let noExt := normSlash (withSuffixEmpty normalized)
  let parts := strSplit '/' normalized
  [(noExt, fp), ("./" ++ noExt, fp), ("/" ++ noExt, fp),
   (normalized, fp), ("./" ++ normalized, fp),
   (stem, fp), ("./" ++ stem, fp)]
  ++ (if (stem = "index" ∨ stem = "__init__") ∧ parent ≠ "" then
        [(parent, fp), ("./" ++ parent, fp), ("/" ++ parent, fp)]
      else [])
  ++ (List.range parts.length).flatMap (fun i =>
        let tailPath := strJoin "/" (parts.drop i)
        let tailNoExt := normSlash (withSuffixEmpty tailPath)
        [(tailNoExt, fp), ("./" ++ tailNoExt, fp), (tailPath, fp), ("./" ++ tailPath, fp)])

/-- The alias assignments of the second loop of `_build_file_map`
(`@/...` keys for files under `src/`). -/
def aliasKeysFor (fp : String) : List (String × String) :=
  let normalized := normSlash fp
  if strStartsWith normalized "src/" then
    let aliasPath := "@/" ++ strDrop normalized 4
    let aliasNoExt := normSlash (withSuffixEmpty aliasPath)
    [(aliasPath, fp), (aliasNoExt, fp)]
  else []

/-- `_build_file_map`: iterate `self.files.keys()` twice, performing the dict
assignments above in order.  Later assignments overwrite earlier ones. -/
def buildFileMap (paths : List String) : List (String × String) :=
  let m := paths.foldl (fun m fp => insertAll m (fileMapKeysFor fp)) []
  paths.foldl (fun m fp => insertAll m (aliasKeysFor fp)) m

/-- The scoped-package test at the top of `_resolve_import`:
`imp.startswith('@') and '/' in imp`. -/
def isScoped (imp : String) : Bool :=
  strStartsWith imp "@" && imp.toList.contains '/'

/-- The `while clean_imp.startswith('../')` loop of `_resolve_import`; each
iteration strips three characters, so `fuel := clean.length` never runs out
before the loop condition fails. -/
def stripDotsAux : Nat → String → String → String × String
  | 0, dir, s => (dir, s)
  | n + 1, dir, s =>
    if strStartsWith s "../" then stripDotsAux n (parentStr dir) (strDrop s 3)
    else (dir, s)

/-- The cleaning phase of `_resolve_import`: normalize separators and resolve
`./`, `../` and a leading `/` against the importing file's directory. -/
def cleanImport (imp currentFile : String) : String :=
  let c := normSlash imp
  if strStartsWith c "./" then
    let dir := normSlash (parentStr currentFile)
    if dir = "." then strDrop c 2 else dir ++ "/" ++ strDrop c 2
  else if strStartsWith c "../" then
    let p := stripDotsAux c.length (parentStr currentFile) c
    if normSlash p.1 ≠ "." then normSlash p.1 ++ "/" ++ p.2 else p.2
  else if strStartsWith c "/" then strDrop c 1
  else c

/-- Extension suffixes tried by `_resolve_import` (`for ext in [...]`). -/
def extSuffixes : List String :=
  ["", ".ts", ".tsx", ".js", ".jsx", ".py", ".java", ".go"]

/-- Index-file suffixes tried by `_resolve_import` (`for idx in [...]`). -/
def idxSuffixes : List String :=
  ["/index.ts", "/index.tsx", "/index.js", "/index.jsx", "/index.py", "/__init__.py"]

/-- Return the value of the first key present in the file map. -/
def firstHit (fm : List (String × String)) : List String → Option String
  | [] => none
  | k :: ks =>
    match alookup k fm with
    | some v => some v
    | none => firstHit fm ks

/-- The ordered lookup keys `_resolve_import` tries: the cleaned string
directly, then with each extension suffix, then with each index suffix. -/
def attemptKeys (clean : String) : List String :=
  [clean] ++ extSuffixes.map (fun e => clean ++ e) ++ idxSuffixes.map (fun e => clean ++ e)

/-- `_resolve_import`: scoped package names are rejected up front; otherwise
the cleaned import is looked up with the suffix rules, and finally the
raw import string is looked up directly (`file_map.get(imp)`). -/
def resolveImport (imp currentFile : String) (fm : List (String × String)) :
    Option String :=
  if isScoped imp then none
  else
    match firstHit fm (attemptKeys (cleanImport imp currentFile)) with
    | some v => some v
    | none => alookup imp fm

/-- Per-file dependency record built by `_build_file_dependencies`. -/
structure Deps where
  imports : List String
  resolved : List String
  external : List String
deriving DecidableEq, Repr

/-- One iteration of the `for imp in imports` loop of
`_build_file_dependencies`.  Python tests `if resolved:` which is false both
for `None` and for an empty string. -/
def addImport (fm : List (String × String)) (path : String) (d : Deps) (imp : String) :
    Deps :=
  match resolveImport imp path fm with
  | some r =>
    if r = "" then
      (if imp ∈ d.external then d else { d with external := d.external ++ [imp] })
    else
      (if r ∈ d.resolved then d else { d with resolved := d.resolved ++ [r] })
  | none =>
    if imp ∈ d.external then d else { d with external := d.external ++ [imp] }

/-- The dependency record of one file. -/
def computeDeps (fm : List (String × String)) (path : String)
    (imports : List String) : Deps :=
  imports.foldl (addImport fm path)
    { imports := imports, resolved := [], external := [] }

/-- `_build_file_dependencies`: files are the ordered `(path, imports)`
entries of `self.files`. -/
def buildFileDependencies (files : List (String × List String)) :
    List (String × Deps) :=
  let fm := buildFileMap (files.map (·.1))
  files.map (fun fe => (fe.1, computeDeps fm fe.1 fe.2))

/-! ### Call Graph Builder (`_build_call_graph`, `_resolve_call` and the
`_extract_*_calls` family in `code_analyzer.py`)

A qualified function id `f"{file_path}::{func_name}"` is modelled as the
pair of its two components; the source's string operations on such ids are
field accesses here: `c.startswith(current_file + "::")` reads the `file`
component, as does `c.split('::')[0]`. -/

/-- Qualified function identity `(file path, function name)`. -/
structure QId where
  file : String
  name : String
deriving DecidableEq, Repr

/-- One node of the call graph (`call_graph[qualified_id]`). -/
structure CGNode where
  name : String
  file : String
  calls : List QId
  calledBy : List QId
  language : String
deriving DecidableEq, Repr

/-- The per-file inputs the call-graph builder reads from `self.files`. -/
structure CGFile where
  path : String
  language : String
  functions : List String
deriving DecidableEq, Repr

/-- The node created for a registered function in phase 1. -/
def freshNode (q : QId) (lang : String) : CGNode :=
  { name := q.name, file := q.file, calls := [], calledBy := [], language := lang }

/-- `func_registry[func_name].append(qualified_id)`, creating the key first
when missing. -/
def regAppend (reg : List (String × List QId)) (k : String) (q : QId) :
    List (String × List QId) :=
  if (alookup k reg).isSome then
    reg.map (fun p => if p.1 = k then (p.1, p.2 ++ [q]) else p)
  else reg ++ [(k, [q])]

/-- Phase 1 of `_build_call_graph`: register every declared function of every
file, building the graph skeleton and the bare-name registry. -/
def buildRegistry (files : List CGFile) :
    List (QId × CGNode) × List (String × List QId) :=
  files.foldl
    (fun acc fe =>
      fe.functions.foldl
        (fun acc fn =>
          let q : QId := ⟨fe.path, fn⟩
          (dictInsert acc.1 q (freshNode q fe.language), regAppend acc.2 fn q))
        acc)
    ([], [])

/-- `_resolve_call`: same-file definitions first, then definitions in files
the caller has a resolved internal edge to, then at most three candidates. -/
def resolveCall (funcName currentFile : String) (reg : List (String × List QId))
    (resolvedDeps : List String) : List QId :=
  let candidates := (alookup funcName reg).getD []
  if candidates = [] then []
  else
    let sameFile := candidates.filter (fun c => c.file = currentFile)
    if sameFile ≠ [] then sameFile
    else
      let imported := candidates.filter (fun c => c.file ∈ resolvedDeps)
      if imported ≠ [] then imported
      else candidates.take 3

/-- Rewrite the node stored under a key (in-place mutation of a dict value). -/
def updateNode (g : List (QId × CGNode)) (k : QId) (f : CGNode → CGNode) :
    List (QId × CGNode) :=
  g.map (fun p => if p.1 = k then (p.1, f p.2) else p)

/-- Append one call target to a node, skipping duplicates
(`if target_id not in call_graph[caller_id]['calls']: append`). -/
def callsAdd (t : QId) (nd : CGNode) : CGNode :=
  if t ∈ nd.calls then nd else { nd with calls := nd.calls ++ [t] }

/-- One resolved target of one candidate call: self-recursion is skipped
(`if target_id != caller_id`). -/
def fwdStep (caller : QId) (g : List (QId × CGNode)) (t : QId) :
    List (QId × CGNode) :=
  if t ≠ caller then updateNode g caller (callsAdd t) else g

/-- The guarded appends every `_extract_*_calls` method performs for the
resolved targets of one candidate call: callers missing from the graph are
skipped entirely (`if caller_id not in call_graph: continue`). -/
def addCallTargets (g : List (QId × CGNode)) (caller : QId) (ts : List QId) :
    List (QId × CGNode) :=
  if (alookup caller g).isSome then ts.foldl (fwdStep caller) g else g

/-- Phase 2, one candidate call: an extraction event is a pair of the caller's
qualified id and the bare callee name found in its body.  The name must be in
the registry (`if callee_name and callee_name in func_registry`); it is then
resolved with the caller's resolved internal dependency edges. -/
def callStep (reg : List (String × List QId)) (deps : String → List String)
    (g : List (QId × CGNode)) (ev : QId × String) : List (QId × CGNode) :=
  if (alookup ev.2 reg).isSome then
    addCallTargets g ev.1 (resolveCall ev.2 ev.1.file reg (deps ev.1.file))
  else g

/-- Phase 2 over a whole run.  The `_extract_python_calls`, `_extract_js_calls`,
`_extract_java_calls` and `_extract_go_calls` scanners differ only in how they
locate candidate `(caller, callee name)` events; theorems below quantify over
every possible event list, covering all four extractors. -/
def phase2 (reg : List (String × List QId)) (deps : String → List String)
    (g : List (QId × CGNode)) (events : List (QId × String)) : List (QId × CGNode) :=
  events.foldl (callStep reg deps) g

/-- Append one caller to a node's reverse edges, skipping duplicates
(`if qualified_id not in call_graph[callee_id]['called_by']: append`). -/
def cbAdd (q : QId) (n : CGNode) : CGNode :=
  if q ∈ n.calledBy then n else { n with calledBy := n.calledBy ++ [q] }

/-- One reverse edge of phase 3 (`if callee_id in call_graph`). -/
def revStep (q : QId) (g : List (QId × CGNode)) (callee : QId) :
    List (QId × CGNode) :=
  if (alookup callee g).isSome then updateNode g callee (cbAdd q) else g

/-- Phase 3, one graph entry: add the reverse edge for each of its calls. -/
def phase3Step (g : List (QId × CGNode)) (q : QId) : List (QId × CGNode) :=
  match alookup q g with
  | none => g
  | some nd => nd.calls.foldl (revStep q) g

/-- Phase 3 of `_build_call_graph`: walk every entry and mirror its forward
edges into the targets' `called_by` lists. -/
def phase3 (g : List (QId × CGNode)) : List (QId × CGNode) :=
  (g.map (·.1)).foldl phase3Step g

/-- `_build_call_graph` end to end, with extraction events as input. -/
def buildCallGraph (files : List CGFile) (deps : String → List String)
    (events : List (QId × String)) : List (QId × CGNode) :=
  let p := buildRegistry files
  phase3 (phase2 p.2 deps p.1 events)

/-! ### Per-File Extractor (`_analyze_file`, `_analyze_python`)

`path.read_text` and `path.stat` can raise; the read outcome is therefore an
input `Option (content, size)` with `none` for a raised exception (the whole
method body sits in a `try` whose `except` returns `None`).  The Python
`ast.parse`-and-walk step of `_analyze_python` is external library code and is
modelled as an oracle returning the extracted name lists on success and `none`
on a parse failure; the regex-based JS/Java/Go extractors never raise and are
likewise oracles. -/

/-- The name lists a successful language extraction produces. -/
structure ExtractInfo where
  imports : List String
  functions : List String
  classes : List String
deriving DecidableEq, Repr

/-- Language extraction oracles: `ast.parse` + walk for Python (fallible), and
the total regex scanners for JS/TS, Java and Go (each also computes the
`has_main` flag). -/
structure Extractors where
  pyParse : String → Option ExtractInfo
  js : String → ExtractInfo × Bool
  java : String → ExtractInfo × Bool
  go : String → ExtractInfo × Bool

/-- The `LANGUAGE_NAMES` table. -/
def languageNames : List (String × String) :=
  [(".py", "Python"), (".js", "JavaScript"), (".jsx", "JavaScript (React)"),
   (".ts", "TypeScript"), (".tsx", "TypeScript (React)"), (".java", "Java"),
   (".go", "Go"), (".rs", "Rust"), (".rb", "Ruby"), (".php", "PHP"),
   (".cs", "C#"), (".swift", "Swift"), (".kt", "Kotlin"), (".scala", "Scala"),
   (".c", "C"), (".cpp", "C++"), (".h", "C/C++ Header"), (".hpp", "C++ Header"),
   (".vue", "Vue"), (".svelte", "Svelte")]

/-- `self.LANGUAGE_NAMES.get(ext, "Unknown")`. -/
def languageOf (ext : String) : String := (alookup ext languageNames).getD "Unknown"

/-- `MAX_CONTENT_SIZE` constant. -/
def maxContentSize : Nat := 8000

/-- `len(content.splitlines())`, with newlines modelled as `'\n'`. -/
def lineCount (s : String) : Nat :=
  (s.toList.filter (· = '\n')).length +
    (if s ≠ "" ∧ s.toList.getLast? ≠ some '\n' then 1 else 0)

/-- Python substring test `pat in s`. -/
def containsSub (s pat : String) : Bool := decide (pat.toList <:+: s.toList)

/-- The `has_main` test of `_analyze_python`. -/
def hasMainPy (content : String) : Bool :=
  containsSub content "__main__" || containsSub content "def main"

/-- The structural summary `_analyze_file` stores in `self.files[rel]`. -/
structure FileMeta where
  extension : String
  language : String
  lines : Nat
  size : Nat
  imports : List String
  functions : List String
  classes : List String
  hasMain : Bool
  content : String
  contentTruncated : Bool
deriving DecidableEq, Repr

/-- The truncated content excerpt stored for LLM context. -/
def contentExcerpt (content : String) : String :=
  if content.length ≤ maxContentSize then content
  else strTake content maxContentSize ++ "\n... [truncated]"

/-- `_analyze_python`: a parse failure yields all-empty structural fields. -/
def analyzePython (pyParse : String → Option ExtractInfo) (content : String) :
    ExtractInfo × Bool :=
  match pyParse content with
  | some info => (info, hasMainPy content)
  | none => (⟨[], [], []⟩, false)

/-- `_analyze_file`: a read failure (`none`) makes the whole method return
`None`; otherwise the base record carries line count, byte size and the
excerpt, updated with the language-specific extraction. -/
def analyzeFile (E : Extractors) (path : String) (read : Option (String × Nat)) :
    Option FileMeta :=
  match read with
  | none => none
  | some (content, size) =>
    let ext := strLower (suffixOf path)
    let upd : ExtractInfo × Bool :=
      if ext = ".py" then analyzePython E.pyParse content
      else if ext = ".js" ∨ ext = ".jsx" ∨ ext = ".ts" ∨ ext = ".tsx" then E.js content
      else if ext = ".java" then E.java content
      else if ext = ".go" then E.go content
      else (⟨[], [], []⟩, false)
    some
      { extension := ext
        language := languageOf ext
        lines := lineCount content
        size := size
        imports := upd.1.imports
        functions := upd.1.functions
        classes := upd.1.classes
        hasMain := upd.2
        content := contentExcerpt content
        contentTruncated := decide (content.length > maxContentSize) }

/-- The collection loop of `analyze()`: `if meta: self.files[rel] = meta` —
files whose analysis returned `None` are dropped, the rest are recorded in
order. -/
def analyzeAll (E : Extractors) (inputs : List (String × Option (String × Nat))) :
    List (String × FileMeta) :=
  inputs.foldl
    (fun acc pr =>
      match analyzeFile E pr.1 pr.2 with
      | some m => acc ++ [(pr.1, m)]
      | none => acc)
    []

/-! ### Architecture layer classification (`_classify_layers` in
`architecture_service.py`)

Only the `dirs`, `frameworks` and `extensions` entries of `LAYER_RULES` are
read by `_classify_layers` (`patterns` and `files` are never consulted), so
rules carry just those three; a missing key is an empty list.  The source
stores `dirs` in Python sets whose iteration order is unspecified; the lists
below fix the literal order of the source. -/

/-- One layer rule. -/
structure LayerRule where
  dirs : List String
  fws : List String
  exts : List String
deriving Repr

/-- The `LAYER_RULES` table, in declaration order. -/
def layerRules : List (String × LayerRule) :=
  [("frontend",
    { dirs := ["src/components", "src/pages", "src/views", "src/app",
               "client", "frontend", "web", "ui", "public", "static",
               "src/screens", "src/layouts", "components", "pages", "views"]
      fws := ["React", "Vue.js", "Angular", "Svelte", "Next.js", "Nuxt.js"]
      exts := [".tsx", ".jsx", ".vue", ".svelte"] }),
   ("api",
    { dirs := ["api", "routes", "controllers", "endpoints", "handlers",
               "src/api", "app/api", "src/routes", "app/routes",
               "server/api", "server/routes"]
      fws := [], exts := [] }),
   ("services",
    { dirs := ["services", "service", "src/services", "app/services",
               "lib", "src/lib", "core", "src/core", "domain",
               "business", "logic", "usecases", "server/services"]
      fws := [], exts := [] }),
   ("data",
    { dirs := ["models", "schemas", "entities", "database", "db",
               "migrations", "prisma", "src/models", "app/models",
               "repositories", "dal", "server/models"]
      fws := ["SQLAlchemy", "Prisma", "TypeORM", "Sequelize"], exts := [] }),
   ("config",
    { dirs := ["config", "configuration", "settings", "src/config",
               "app/config", "app/core"]
      fws := [], exts := [] }),
   ("tests",
    { dirs := ["tests", "test", "__tests__", "spec", "specs",
               "src/__tests__", "src/test", "e2e", "integration"]
      fws := [], exts := [] }),
   ("middleware",
    { dirs := ["middleware", "middlewares", "src/middleware",
               "app/middleware", "interceptors"]
      fws := [], exts := [] }),
   ("utils",
    { dirs := ["utils", "helpers", "shared", "common", "src/utils",
               "src/helpers", "tools", "lib/utils"]
      fws := [], exts := [] })]

/-- The frontend-extension set used by the `+3` bonus. -/
def frontendExts : List String := [".tsx", ".jsx", ".vue", ".svelte"]

/-- The `for d in rules['dirs']` loop: the first directory pattern that
matches scores 10 (exact or prefix match) or 5 (inner-segment or
last-segment-suffix match) and breaks. -/
def dirScore (compLower : String) : List String → Nat
  | [] => 0
  | d :: ds =>
    let dl := strLower d
    if compLower = dl ∨ strStartsWith compLower (dl ++ "/") then 10
    else if containsSub compLower ("/" ++ dl)
            ∨ strEndsWith compLower ("/" ++ lastSegD dl) then 5
    else dirScore compLower ds

/-- The total score `_classify_layers` accumulates for one component against
one rule: the directory score, `+8` when a detected framework belongs to the
rule and the component holds a matching extension (only the `frontend` rule
has both keys), and `+3` for the frontend rule when the component holds a
frontend-like extension. -/
def scoreFor (allFw : List String) (layerName : String) (r : LayerRule)
    (compLower : String) (exts : List String) : Nat :=
  dirScore compLower r.dirs
    + (if allFw.any (fun fw => r.fws.contains fw)
          && exts.any (fun e => r.exts.contains e) then 8 else 0)
    + (if layerName = "frontend"
          && exts.any (fun e => frontendExts.contains e) then 3 else 0)

/-- The arbitration loop: start from `('other', 0)` and replace the best layer
only on a strictly larger score. -/
def pickLayer : List (String × Nat) → String → Nat → String
  | [], best, _ => best
  | (n, s) :: rest, best, bs =>
    if s > bs then pickLayer rest n s else pickLayer rest best bs

/-- Layer classification of one component from its id and its extension set. -/
def classifyOne (allFw : List String) (compId : String) (exts : List String) :
    String :=
  let compLower := normSlash (strLower compId)
  pickLayer (layerRules.map (fun p => (p.1, scoreFor allFw p.1 p.2 compLower exts)))
    "other" 0

/-- `_classify_layers` over all components (id together with the extensions
present in the component's files). -/
def classifyLayers (allFw : List String) (comps : List (String × List String)) :
    List (String × String) :=
  comps.map (fun c => (c.1, classifyOne allFw c.1 c.2))

/-! ### Brace-span detection (`_find_brace_end`) -/

/-- The quote characters of the scanner: double quote, single quote,
backtick. -/
def quoteChars : List Char := [Char.ofNat 34, Char.ofNat 39, Char.ofNat 96]

/-- Backslash. -/
def backslashChar : Char := Char.ofNat 92

/-- Opening brace. -/
def openBrace : Char := Char.ofNat 123

/-- Closing brace. -/
def closeBrace : Char := Char.ofNat 125

/-- The `while i < len(content)` loop of `_find_brace_end`, carrying the
position, brace depth and string state.  A quote character not preceded by a
backslash toggles string state; outside strings braces are counted and the
scan returns `i + 1` when the depth returns to zero.  The loop advances `i`
by one per iteration, so running it with `fuel > content.length - i` is the
loop itself; the fuel-exhausted value is never reached. -/
def fbeAux (content : List Char) : Nat → Nat → Int → Bool → Option Char → Nat
  | 0, _, _, _, _ => content.length
  | fuel + 1, i, depth, inString, stringChar =>
    if h : i < content.length then
      let c := content.get ⟨i, h⟩
      let st : Bool × Option Char :=
        if quoteChars.contains c
            && (i = 0 ∨ content.get? (i - 1) ≠ some backslashChar : Bool) then
          if !inString then (true, some c)
          else if stringChar = some c then (false, none)
          else (inString, stringChar)
        else (inString, stringChar)
      if !st.1 then
        if c = openBrace then fbeAux content fuel (i + 1) (depth + 1) st.1 st.2
        else if c = closeBrace then
          if depth - 1 = 0 then i + 1
          else fbeAux content fuel (i + 1) (depth - 1) st.1 st.2
        else fbeAux content fuel (i + 1) depth st.1 st.2
      else fbeAux content fuel (i + 1) depth st.1 st.2
    else content.length

/-- `_find_brace_end`. -/
def findBraceEnd (content : String) (start : Nat) : Nat :=
  fbeAux content.toList (content.toList.length + 1) start 0 false none

/-! ## Lemmas: association lists -/

theorem alookup_mem {α β : Type} [DecidableEq α] {k : α} {v : β} :
    ∀ {m : List (α × β)}, alookup k m = some v → (k, v) ∈ m := by
  intro m
  induction m with
  | nil => intro h; simp [alookup] at h
  | cons p ps ih =>
    intro h
    rw [alookup] at h
    by_cases hk : p.1 = k
    · rw [if_pos hk] at h
      have hv : p.2 = v := Option.some.inj h
      cases p with
      | mk a b =>
        cases hk
        cases hv
        exact List.mem_cons_self _ _
    · rw [if_neg hk] at h
      exact List.mem_cons_of_mem _ (ih h)

theorem alookup_isSome_iff_mem {α β : Type} [DecidableEq α] {k : α} :
    ∀ {m : List (α × β)}, (alookup k m).isSome ↔ k ∈ m.map (·.1) := by
  intro m
  induction m with
  | nil => simp [alookup]
  | cons p ps ih =>
    rw [alookup]
    by_cases hk : p.1 = k
    · simp [if_pos hk, hk]
    · simp only [if_neg hk, List.map_cons, List.mem_cons, ih]
      constructor
      · intro h; exact Or.inr h
      · rintro (h | h)
        · exact absurd h.symm hk
        · exact h

theorem mem_dictInsert {α β : Type} [DecidableEq α] {m : List (α × β)} {k : α}
    {v : β} {p : α × β} (h : p ∈ dictInsert m k v) : p ∈ m ∨ p = (k, v) := by
  rw [dictInsert] at h
  by_cases hs : (alookup k m).isSome
  · rw [if_pos hs] at h
    obtain ⟨q, hq, hpq⟩ := List.mem_map.1 h
    by_cases hk : q.1 = k
    · rw [if_pos hk] at hpq; exact Or.inr hpq.symm
    · rw [if_neg hk] at hpq; exact Or.inl (hpq ▸ hq)
  · rw [if_neg hs] at h
    rcases List.mem_append.1 h with h | h
    · exact Or.inl h
    · simp at h; exact Or.inr (by cases p; simp_all)

theorem alookup_dictInsert_isSome {α β : Type} [DecidableEq α] {m : List (α × β)}
    {k' k : α} {v : β} (h : (alookup k' m).isSome ∨ k' = k) :
    (alookup k' (dictInsert m k v)).isSome := by
  rw [alookup_isSome_iff_mem]
  rw [dictInsert]
  by_cases hs : (alookup k m).isSome
  · rw [if_pos hs]
    rcases h with h | h
    · obtain ⟨w, hw⟩ := Option.isSome_iff_exists.1 h
      have := alookup_mem hw
      refine List.mem_map.2 ⟨(if k' = k then (k, v) else (k', w)), ?_, ?_⟩
      · refine List.mem_map.2 ⟨(k', w), this, ?_⟩
        by_cases hk : k' = k
        · simp [hk]
        · simp [hk]
      · by_cases hk : k' = k <;> simp [hk]
    · subst h
      obtain ⟨w, hw⟩ := Option.isSome_iff_exists.1 hs
      have := alookup_mem hw
      exact List.mem_map.2 ⟨(k', v), List.mem_map.2 ⟨(k', w), this, by simp⟩, rfl⟩
  · rw [if_neg hs]
    rw [List.map_append]
    rcases h with h | h
    · exact List.mem_append_left _ (alookup_isSome_iff_mem.1 h)
    · exact List.mem_append_right _ (by simp [h])

theorem foldl_pres {σ α : Type} {P : σ → Prop} {f : σ → α → σ}
    (h : ∀ s a, P s → P (f s a)) :
    ∀ (l : List α) (s : σ), P s → P (l.foldl f s) := by
  intro l
  induction l with
  | nil => intro s hs; exact hs
  | cons a as ih => intro s hs; exact ih _ (h s a hs)

theorem foldl_rel {σ α : Type} {R : σ → σ → Prop} {f : σ → α → σ}
    (hrefl : ∀ s, R s s)
    (htrans : ∀ a b c, R a b → R b c → R a c)
    (hstep : ∀ s a, R s (f s a)) :
    ∀ (l : List α) (s : σ), R s (l.foldl f s) := by
  intro l
  induction l with
  | nil => intro s; exact hrefl s
  | cons a as ih =>
    intro s
    exact htrans _ _ _ (hstep s a) (ih (f s a))

theorem insertAll_cons {α β : Type} [DecidableEq α] {m : List (α × β)}
    {kv : α × β} {rest : List (α × β)} :
    insertAll m (kv :: rest) = insertAll (dictInsert m kv.1 kv.2) rest := rfl

theorem mem_ite_nil {α : Type} {c : Prop} [Decidable c] {l : List α} {a : α}
    (h : a ∈ (if c then l else [])) : a ∈ l := by
  split at h
  · exact h
  · simp at h

theorem mem_insertAll {α β : Type} [DecidableEq α] {m kvs : List (α × β)}
    {p : α × β} (h : p ∈ insertAll m kvs) : p ∈ m ∨ p ∈ kvs := by
  induction kvs generalizing m with
  | nil => exact Or.inl h
  | cons kv rest ih =>
    rw [insertAll_cons] at h
    rcases ih (m := dictInsert m kv.1 kv.2) h with h' | h'
    · rcases mem_dictInsert h' with h'' | h''
      · exact Or.inl h''
      · right; rw [h'']; exact List.mem_cons_self _ _
    · exact Or.inr (List.mem_cons_of_mem _ h')

theorem alookup_insertAll_isSome_of_isSome {α β : Type} [DecidableEq α]
    {m kvs : List (α × β)} {k : α} (h : (alookup k m).isSome) :
    (alookup k (insertAll m kvs)).isSome := by
  induction kvs generalizing m with
  | nil => exact h
  | cons kv rest ih =>
    rw [insertAll_cons]
    exact ih (alookup_dictInsert_isSome (Or.inl h))

theorem alookup_insertAll_isSome_of_mem {α β : Type} [DecidableEq α]
    {m kvs : List (α × β)} {k : α} {v : β} (h : (k, v) ∈ kvs) :
    (alookup k (insertAll m kvs)).isSome := by
  induction kvs generalizing m with
  | nil => simp at h
  | cons kv rest ih =>
    rw [insertAll_cons]
    rcases List.mem_cons.1 h with h' | h'
    · have : k = kv.1 := by rw [← h']
      exact alookup_insertAll_isSome_of_isSome
        (alookup_dictInsert_isSome (Or.inr this))
    · exact ih h'

/-! ## Lemmas: the file map -/

theorem snd_mem_fileMapKeysFor {fp : String} {kv : String × String}
    (h : kv ∈ fileMapKeysFor fp) : kv.2 = fp := by
  rw [fileMapKeysFor] at h
  rcases List.mem_append.1 h with h | h
  · rcases List.mem_append.1 h with h | h
    · simp only [List.mem_cons, List.not_mem_nil, or_false] at h
      rcases h with h | h | h | h | h | h | h <;> rw [h]
    · have h := mem_ite_nil h
      simp only [List.mem_cons, List.not_mem_nil, or_false] at h
      rcases h with h | h | h <;> rw [h]
  · obtain ⟨i, _, hmem⟩ := List.mem_flatMap.1 h
    simp only [List.mem_cons, List.not_mem_nil, or_false] at hmem
    rcases hmem with h | h | h | h <;> rw [h]

theorem snd_mem_aliasKeysFor {fp : String} {kv : String × String}
    (h : kv ∈ aliasKeysFor fp) : kv.2 = fp := by
  rw [aliasKeysFor] at h
  have h := mem_ite_nil h
  simp only [List.mem_cons, List.not_mem_nil, or_false] at h
  rcases h with h | h <;> rw [h]

theorem snd_mem_keyFold {keysFn : String → List (String × String)}
    (hval : ∀ fp kv, kv ∈ keysFn fp → kv.2 = fp)
    {paths l : List String} (hsub : ∀ fp ∈ l, fp ∈ paths)
    {m : List (String × String)} (hm : ∀ p ∈ m, p.2 ∈ paths) :
    ∀ p ∈ l.foldl (fun m fp => insertAll m (keysFn fp)) m, p.2 ∈ paths := by
  induction l generalizing m with
  | nil => exact hm
  | cons fp rest ih =>
    refine ih (fun x hx => hsub x (List.mem_cons_of_mem _ hx)) ?_
    intro p hp
    rcases mem_insertAll hp with h | h
    · exact hm p h
    · rw [hval fp p h]; exact hsub fp (List.mem_cons_self _ _)

/-- Every value stored in the file map is the path of an analyzed file. -/
theorem snd_mem_buildFileMap {paths : List String} {p : String × String}
    (h : p ∈ buildFileMap paths) : p.2 ∈ paths := by
  rw [buildFileMap] at h
  refine snd_mem_keyFold (fun fp kv => snd_mem_aliasKeysFor) (fun fp h => h)
    (m := paths.foldl (fun m fp => insertAll m (fileMapKeysFor fp)) []) ?_ p h
  intro q hq
  exact snd_mem_keyFold (fun fp kv => snd_mem_fileMapKeysFor) (fun fp h => h)
    (m := []) (by intro x hx; simp at hx) q hq

theorem alookup_keyFold_isSome {keysFn : String → List (String × String)}
    {l : List String} {fp k v : String} (hfp : fp ∈ l)
    (hkey : (k, v) ∈ keysFn fp) (m : List (String × String)) :
    (alookup k (l.foldl (fun m fp => insertAll m (keysFn fp)) m)).isSome := by
  induction l generalizing m with
  | nil => simp at hfp
  | cons x rest ih =>
    rcases List.mem_cons.1 hfp with h | h
    · subst h
      by_cases hrest : fp ∈ rest
      · exact ih hrest _
      · have hbase : (alookup k (insertAll m (keysFn fp))).isSome :=
          alookup_insertAll_isSome_of_mem hkey
        exact foldl_pres (P := fun s => (alookup k s).isSome)
          (fun _ _ hs => alookup_insertAll_isSome_of_isSome hs) rest _ hbase
    · exact ih h _

theorem alookup_keyFold_isSome_of_isSome {keysFn : String → List (String × String)}
    {l : List String} {k : String} {m : List (String × String)}
    (h : (alookup k m).isSome) :
    (alookup k (l.foldl (fun m fp => insertAll m (keysFn fp)) m)).isSome :=
  foldl_pres (P := fun s => (alookup k s).isSome)
    (fun _ _ hs => alookup_insertAll_isSome_of_isSome hs) l m h

/-- The file map contains every analyzed file's normalized path as a key
(registered by the `file_map[normalized] = file_path` assignment). -/
theorem alookup_buildFileMap_isSome {paths : List String} {g : String}
    (hg : g ∈ paths) (hns : normSlash g = g) :
    (alookup g (buildFileMap paths)).isSome := by
  rw [buildFileMap]
  refine alookup_keyFold_isSome_of_isSome ?_
  refine alookup_keyFold_isSome hg (v := g) ?_ _
  rw [fileMapKeysFor]
  refine List.mem_append_left _ (List.mem_append_left _ ?_)
  rw [hns]
  simp

/-! ## Lemmas: import resolution and the dependency fold -/

theorem firstHit_val {fm : List (String × String)} :
    ∀ {ks : List String} {v : String}, firstHit fm ks = some v →
      ∃ k ∈ ks, alookup k fm = some v := by
  intro ks
  induction ks with
  | nil => intro v h; simp [firstHit] at h
  | cons k rest ih =>
    intro v h
    rw [firstHit] at h
    cases hk : alookup k fm with
    | some w =>
      rw [hk] at h
      cases h
      exact ⟨k, List.mem_cons_self _ _, hk⟩
    | none =>
      rw [hk] at h
      obtain ⟨k', hk', hv⟩ := ih h
      exact ⟨k', List.mem_cons_of_mem _ hk', hv⟩

theorem firstHit_isSome {fm : List (String × String)} :
    ∀ {ks : List String} {k : String}, k ∈ ks → (alookup k fm).isSome →
      (firstHit fm ks).isSome := by
  intro ks
  induction ks with
  | nil => intro k h; simp at h
  | cons k0 rest ih =>
    intro k hk hs
    rw [firstHit]
    cases hk0 : alookup k0 fm with
    | some w => simp
    | none =>
      rcases List.mem_cons.1 hk with h | h
      · subst h; rw [hk0] at hs; simp at hs
      · exact ih h hs

/-- A successful resolution always returns a value stored in the file map. -/
theorem resolveImport_val {imp currentFile t : String} {fm : List (String × String)}
    (h : resolveImport imp currentFile fm = some t) :
    ∃ k, alookup k fm = some t := by
  rw [resolveImport] at h
  split at h
  · exact absurd h (by simp)
  · cases hfh : firstHit fm (attemptKeys (cleanImport imp currentFile)) with
    | some v =>
      rw [hfh] at h
      cases h
      obtain ⟨k, _, hv⟩ := firstHit_val hfh
      exact ⟨k, hv⟩
    | none =>
      rw [hfh] at h
      exact ⟨imp, h⟩

/-- If any attempted key (the cleaned import followed by an extension or
index suffix) is present in the file map, resolution succeeds. -/
theorem resolveImport_isSome {imp currentFile sfx : String}
    {fm : List (String × String)}
    (hns : isScoped imp = false)
    (hsfx : sfx ∈ extSuffixes ∨ sfx ∈ idxSuffixes)
    (hkey : (alookup (cleanImport imp currentFile ++ sfx) fm).isSome) :
    (resolveImport imp currentFile fm).isSome := by
  rw [resolveImport, if_neg (by simp [hns])]
  have hmem : cleanImport imp currentFile ++ sfx
      ∈ attemptKeys (cleanImport imp currentFile) := by
    rw [attemptKeys]
    rcases hsfx with h | h
    · exact List.mem_append_left _ (List.mem_append_right _
        (List.mem_map.2 ⟨sfx, h, rfl⟩))
    · exact List.mem_append_right _ (List.mem_map.2 ⟨sfx, h, rfl⟩)
  have := firstHit_isSome hmem hkey
  obtain ⟨v, hv⟩ := Option.isSome_iff_exists.1 this
  rw [hv]
  simp

/-- `addImport` only appends to the `resolved` and `external` lists. -/
theorem addImport_mono {fm : List (String × String)} {path : String} {d : Deps}
    {i x : String} :
    (x ∈ d.resolved → x ∈ (addImport fm path d i).resolved) ∧
    (x ∈ d.external → x ∈ (addImport fm path d i).external) := by
  rw [addImport]
  constructor <;> intro hx
  · split
    · split
      · split <;> exact hx
      · split
        · exact hx
        · exact List.mem_append_left _ hx
    · split <;> exact hx
  · split
    · split
      · split
        · exact hx
        · exact List.mem_append_left _ hx
      · split <;> exact hx
    · split
      · exact hx
      · exact List.mem_append_left _ hx

theorem depsFold_mono {fm : List (String × String)} {path : String}
    {l : List String} {d : Deps} {x : String} :
    (x ∈ d.resolved → x ∈ (l.foldl (addImport fm path) d).resolved) ∧
    (x ∈ d.external → x ∈ (l.foldl (addImport fm path) d).external) := by
  induction l generalizing d with
  | nil => exact ⟨id, id⟩
  | cons i rest ih =>
    exact ⟨fun hx => ih.1 (addImport_mono.1 hx), fun hx => ih.2 (addImport_mono.2 hx)⟩

/-- Classification invariant of the dependency fold: every entry of
`external` is an import whose resolution failed (returned `None` or a falsy
empty string), and every entry of `resolved` is a value some import resolved
to. -/
def DepsInv (fm : List (String × String)) (path : String) (d : Deps) : Prop :=
  (∀ x ∈ d.external,
     resolveImport x path fm = none ∨ resolveImport x path fm = some "") ∧
  (∀ x ∈ d.resolved, x ≠ "" ∧ ∃ i, resolveImport i path fm = some x)

theorem addImport_inv {fm : List (String × String)} {path : String} {d : Deps}
    {i : String} (h : DepsInv fm path d) : DepsInv fm path (addImport fm path d i) := by
  cases hr : resolveImport i path fm with
  | some r =>
    simp only [addImport, hr]
    by_cases hre : r = ""
    · rw [if_pos hre]
      split
      · exact h
      · refine ⟨?_, h.2⟩
        intro x hx
        rcases List.mem_append.1 hx with hx | hx
        · exact h.1 x hx
        · simp only [List.mem_singleton] at hx
          subst hx
          right
          rw [hr, hre]
    · rw [if_neg hre]
      split
      · exact h
      · refine ⟨h.1, ?_⟩
        intro x hx
        rcases List.mem_append.1 hx with hx | hx
        · exact h.2 x hx
        · simp only [List.mem_singleton] at hx
          subst hx
          exact ⟨hre, i, hr⟩
  | none =>
    simp only [addImport, hr]
    split
    · exact h
    · refine ⟨?_, h.2⟩
      intro x hx
      rcases List.mem_append.1 hx with hx | hx
      · exact h.1 x hx
      · simp only [List.mem_singleton] at hx
        subst hx
        exact Or.inl hr

theorem computeDeps_inv {fm : List (String × String)} {path : String}
    {imports : List String} : DepsInv fm path (computeDeps fm path imports) := by
  rw [computeDeps]
  refine foldl_pres (P := DepsInv fm path) (fun d i hd => addImport_inv hd) _ _ ?_
  exact ⟨by intro x hx; simp at hx, by intro x hx; simp at hx⟩

/-- The outcome of each import's classification is present in the final
record: a truthy resolution lands in `resolved`, a falsy one puts the
raw import in `external`. -/
theorem computeDeps_classified {fm : List (String × String)} {path : String}
    {imports : List String} {imp : String} (h : imp ∈ imports) :
    (∀ r, resolveImport imp path fm = some r → r ≠ "" →
        r ∈ (computeDeps fm path imports).resolved) ∧
    ((resolveImport imp path fm = none ∨ resolveImport imp path fm = some "") →
        imp ∈ (computeDeps fm path imports).external) := by
  rw [computeDeps]
  generalize hd : ({ imports := imports, resolved := [], external := [] } : Deps) = d
  clear hd
  induction imports generalizing d with
  | nil => simp at h
  | cons i rest ih =>
    rcases List.mem_cons.1 h with h' | h'
    · subst h'
      constructor
      · intro r hr hre
        rw [List.foldl_cons]
        refine depsFold_mono.1 ?_
        simp only [addImport, hr, if_neg hre]
        split
        · assumption
        · exact List.mem_append_right _ (List.mem_singleton.2 rfl)
      · intro hfail
        rw [List.foldl_cons]
        refine depsFold_mono.2 ?_
        rcases hfail with hr | hr <;> simp only [addImport, hr]
        · split
          · assumption
          · exact List.mem_append_right _ (List.mem_singleton.2 rfl)
        · simp only [if_true]
          split
          · assumption
          · exact List.mem_append_right _ (List.mem_singleton.2 rfl)
    · exact ih h' (d := addImport fm path d i)

/-! ## Claim theorems: reference resolution (C1, C5, C6, C9) -/

/-- A three-file run exhibiting key shadowing in the file map: `a/x.py`
registers the suffix keys `x.py` and `x` after `x.py` registered them. -/
def cexFiles : List (String × List String) :=
  [("x.py", []), ("a/x.py", []), ("f.py", ["./x"])]

/-- The run of the spec's worked example in §8. -/
def specExampleFiles : List (String × List String) :=
  [("src/services/user_service.py", ["./db/user_repo", "requests"]),
   ("src/services/db/user_repo.py", [])]

/-- A run using the `@/` source-root alias of the spec's §4.3. -/
def aliasExampleFiles : List (String × List String) :=
  [("src/components/Button.tsx", []), ("src/app.tsx", ["@/components/Button"])]

/-- C5: reference resolution is total and partitioning.  For every file of a
run and every raw import string it holds, the dependency record of the file
is produced (resolution is a total function, never an exception), and
the import is classified into exactly one of the two outcomes: a truthy
resolution puts the resolved target into the `resolved` set and keeps
the import out of `external`, otherwise the import string itself lands
verbatim in `external`.  Scoped package-style names (leading `@` with a `/`) always
take the external outcome. -/
theorem C5_resolution_total_and_partitioning
    (files : List (String × List String)) (fe : String × List String)
    (imp : String) (hfe : fe ∈ files) (himp : imp ∈ fe.2) :
    (fe.1, computeDeps (buildFileMap (files.map (·.1))) fe.1 fe.2)
        ∈ buildFileDependencies files ∧
    ((∃ t, resolveImport imp fe.1 (buildFileMap (files.map (·.1))) = some t ∧
        t ≠ "" ∧
        t ∈ (computeDeps (buildFileMap (files.map (·.1))) fe.1 fe.2).resolved ∧
        imp ∉ (computeDeps (buildFileMap (files.map (·.1))) fe.1 fe.2).external) ∨
      ((resolveImport imp fe.1 (buildFileMap (files.map (·.1))) = none ∨
        resolveImport imp fe.1 (buildFileMap (files.map (·.1))) = some "") ∧
        imp ∈ (computeDeps (buildFileMap (files.map (·.1))) fe.1 fe.2).external)) ∧
    (isScoped imp = true →
        imp ∈ (computeDeps (buildFileMap (files.map (·.1))) fe.1 fe.2).external) := by
  refine ⟨?_, ?_, ?_⟩
  · rw [buildFileDependencies]
    exact List.mem_map.2 ⟨fe, hfe, rfl⟩
  · cases hres : resolveImport imp fe.1 (buildFileMap (files.map (·.1))) with
    | some t =>
      by_cases hte : t = ""
      · subst hte
        exact Or.inr ⟨Or.inr rfl, (computeDeps_classified himp).2 (Or.inr hres)⟩
      · refine Or.inl ⟨t, rfl, hte, (computeDeps_classified himp).1 t hres hte, ?_⟩
        intro hext
        rcases computeDeps_inv.1 imp hext with h0 | h0 <;> rw [hres] at h0
        · cases h0
        · exact hte (Option.some.inj h0)
    | none =>
      exact Or.inr ⟨Or.inl rfl, (computeDeps_classified himp).2 (Or.inl hres)⟩
  · intro hsc
    have hnone : resolveImport imp fe.1 (buildFileMap (files.map (·.1))) = none := by
      rw [resolveImport, if_pos hsc]
    exact (computeDeps_classified himp).2 (Or.inl hnone)

set_option maxRecDepth 100000 in
set_option maxHeartbeats 1000000 in
/-- Witness for C5 at the spec's worked example: the unresolvable import
`requests` is classified external. -/
theorem C5_witness :
    "requests" ∈ (computeDeps (buildFileMap (specExampleFiles.map (·.1)))
      "src/services/user_service.py" ["./db/user_repo", "requests"]).external := by
  have h := (C5_resolution_total_and_partitioning specExampleFiles
    ("src/services/user_service.py", ["./db/user_repo", "requests"]) "requests"
    (by decide) (by decide)).2.1
  rcases h with ⟨t, ht, hte, _, _⟩ | ⟨_, hext⟩
  · have hn : resolveImport "requests" "src/services/user_service.py"
        (buildFileMap (specExampleFiles.map (·.1))) = none := by decide
    rw [hn] at ht
    cases ht
  · exact hext

/-- C9: no dangling internal edges — every entry of a file's `resolved` set
is the repository-relative path of a file analyzed in the same run. -/
theorem C9_no_dangling_internal_edges
    (files : List (String × List String)) (p : String) (d : Deps)
    (h : (p, d) ∈ buildFileDependencies files) :
    ∀ t ∈ d.resolved, t ∈ files.map (·.1) := by
  rw [buildFileDependencies] at h
  obtain ⟨fe, hfe, heq⟩ := List.mem_map.1 h
  have hd : computeDeps (buildFileMap (files.map (·.1))) fe.1 fe.2 = d :=
    (Prod.mk.injEq _ _ _ _ ▸ heq).2
  intro t ht
  rw [← hd] at ht
  obtain ⟨hne, i, hres⟩ := computeDeps_inv.2 t ht
  obtain ⟨k, hk⟩ := resolveImport_val hres
  exact snd_mem_buildFileMap (alookup_mem hk)

set_option maxRecDepth 100000 in
set_option maxHeartbeats 1000000 in
/-- Witness for C9: in the spec-example run, the single resolved edge targets
an analyzed file. -/
theorem C9_witness :
    "src/services/db/user_repo.py" ∈ specExampleFiles.map (·.1) :=
  C9_no_dangling_internal_edges specExampleFiles
    "src/services/user_service.py"
    { imports := ["./db/user_repo", "requests"],
      resolved := ["src/services/db/user_repo.py"],
      external := ["requests"] }
    (by decide) "src/services/db/user_repo.py" (by decide)

/-- C1 (amended): a relative reference whose cleaned form plus one of the
extension or index suffixes is the path of an analyzed file is always
classified internal — some analyzed file's path enters the `resolved` set
and the reference never enters `external`; the target is the file the
(possibly shadowed) lookup table maps the cleaned reference to. -/
theorem C1_relative_reference_classified_internal
    (files : List (String × List String)) (fe : String × List String)
    (imp g sfx : String)
    (_hfe : fe ∈ files) (himp : imp ∈ fe.2)
    (_hrel : strStartsWith imp "./" = true ∨ strStartsWith imp "../" = true)
    (hsc : isScoped imp = false)
    (hsfx : sfx ∈ extSuffixes ∨ sfx ∈ idxSuffixes)
    (hclean : cleanImport imp fe.1 ++ sfx = g)
    (hg : g ∈ files.map (·.1)) (hns : normSlash g = g)
    (hnoempty : "" ∉ files.map (·.1)) :
    ∃ t, resolveImport imp fe.1 (buildFileMap (files.map (·.1))) = some t ∧
      t ∈ files.map (·.1) ∧
      t ∈ (computeDeps (buildFileMap (files.map (·.1))) fe.1 fe.2).resolved ∧
      imp ∉ (computeDeps (buildFileMap (files.map (·.1))) fe.1 fe.2).external := by
  have hkey : (alookup (cleanImport imp fe.1 ++ sfx)
      (buildFileMap (files.map (·.1)))).isSome := by
    rw [hclean]
    exact alookup_buildFileMap_isSome hg hns
  obtain ⟨t, ht⟩ := Option.isSome_iff_exists.1 (resolveImport_isSome hsc hsfx hkey)
  have htpaths : t ∈ files.map (·.1) := by
    obtain ⟨k, hk⟩ := resolveImport_val ht
    exact snd_mem_buildFileMap (alookup_mem hk)
  have htne : t ≠ "" := fun he => hnoempty (he ▸ htpaths)
  refine ⟨t, ht, htpaths, (computeDeps_classified himp).1 t ht htne, ?_⟩
  intro hext
  rcases computeDeps_inv.1 imp hext with h0 | h0 <;> rw [ht] at h0
  · cases h0
  · exact htne (Option.some.inj h0)

set_option maxRecDepth 100000 in
set_option maxHeartbeats 1000000 in
/-- Witness for the amended C1 at the spec's worked example, where the lookup
is not shadowed. -/
theorem C1_witness :
    ∃ t, resolveImport "./db/user_repo" "src/services/user_service.py"
        (buildFileMap (specExampleFiles.map (·.1))) = some t ∧
      t ∈ specExampleFiles.map (·.1) ∧
      t ∈ (computeDeps (buildFileMap (specExampleFiles.map (·.1)))
            "src/services/user_service.py"
            ["./db/user_repo", "requests"]).resolved ∧
      "./db/user_repo" ∉ (computeDeps (buildFileMap (specExampleFiles.map (·.1)))
            "src/services/user_service.py"
            ["./db/user_repo", "requests"]).external :=
  C1_relative_reference_classified_internal specExampleFiles
    ("src/services/user_service.py", ["./db/user_repo", "requests"])
    "./db/user_repo" "src/services/db/user_repo.py" ".py"
    (by decide) (by decide) (Or.inl (by decide)) (by decide)
    (Or.inl (by decide)) (by decide) (by decide) (by decide) (by decide)

set_option maxRecDepth 100000 in
set_option maxHeartbeats 1000000 in
/-- Counterexample to C1 as stated: in `cexFiles` the import `./x` of `f.py`
cleans to `x`, and `x` plus the extension suffix `.py` is exactly the path of
the analyzed file `x.py`; yet the dependency record of `f.py` lists
`a/x.py` — whose later suffix registration shadowed the keys `x` and
`x.py` — so `x.py` itself is not in the resolved set. -/
theorem C1_counterexample :
    strStartsWith "./x" "./" = true ∧
    cleanImport "./x" "f.py" = "x" ∧
    "x" ++ ".py" = "x.py" ∧ ".py" ∈ extSuffixes ∧
    "x.py" ∈ cexFiles.map (·.1) ∧
    alookup "f.py" (buildFileDependencies cexFiles) =
      some { imports := ["./x"], resolved := ["a/x.py"], external := [] } ∧
    ("x.py" : String) ∉ (["a/x.py"] : List String) := by
  decide

/-- C6 (amended): the `@/` alias keys of files under `src/` are registered in
the lookup table, but every import string beginning with `@` and containing a
`/` — the `@/` alias form included — is classified external by the
scoped-package check before the table is consulted, so the alias is not
effective end to end. -/
theorem C6_alias_registered_but_not_effective :
    (∀ (paths : List String) (p : String), p ∈ paths →
        strStartsWith p "src/" = true → normSlash p = p →
        (alookup ("@/" ++ strDrop p 4) (buildFileMap paths)).isSome) ∧
    (∀ (files : List (String × List String)) (fe : String × List String)
        (imp : String), fe ∈ files → imp ∈ fe.2 → isScoped imp = true →
        resolveImport imp fe.1 (buildFileMap (files.map (·.1))) = none ∧
        imp ∈ (computeDeps (buildFileMap (files.map (·.1))) fe.1 fe.2).external) := by
  constructor
  · intro paths p hp hsw hns
    rw [buildFileMap]
    refine alookup_keyFold_isSome hp (v := p) ?_ _
    simp [aliasKeysFor, hns, hsw]
  · intro files fe imp hfe himp hsc
    have hnone : resolveImport imp fe.1 (buildFileMap (files.map (·.1))) = none := by
      rw [resolveImport, if_pos hsc]
    exact ⟨hnone, (computeDeps_classified himp).2 (Or.inl hnone)⟩

set_option maxRecDepth 100000 in
set_option maxHeartbeats 1000000 in
/-- Witness for the amended C6 at the alias-example run. -/
theorem C6_witness :
    (alookup ("@/" ++ strDrop "src/components/Button.tsx" 4)
        (buildFileMap (aliasExampleFiles.map (·.1)))).isSome ∧
    resolveImport "@/components/Button" "src/app.tsx"
        (buildFileMap (aliasExampleFiles.map (·.1))) = none ∧
    "@/components/Button" ∈ (computeDeps (buildFileMap (aliasExampleFiles.map (·.1)))
        "src/app.tsx" ["@/components/Button"]).external :=
  by
  have h1 := C6_alias_registered_but_not_effective.1 (aliasExampleFiles.map (·.1))
    "src/components/Button.tsx" (by decide) (by decide) (by decide)
  have h2 := C6_alias_registered_but_not_effective.2 aliasExampleFiles
    ("src/app.tsx", ["@/components/Button"]) "@/components/Button"
    (by decide) (by decide) (by decide)
  exact ⟨h1, h2.1, h2.2⟩

set_option maxRecDepth 100000 in
set_option maxHeartbeats 1000000 in
/-- Counterexample to C6 as stated: the alias key `@/components/Button` is in
the lookup table and maps to the analyzed file, yet the import
`@/components/Button` of `src/app.tsx` is classified external, with an empty
resolved set. -/
theorem C6_counterexample :
    alookup "@/components/Button" (buildFileMap (aliasExampleFiles.map (·.1))) =
      some "src/components/Button.tsx" ∧
    alookup "src/app.tsx" (buildFileDependencies aliasExampleFiles) =
      some { imports := ["@/components/Button"], resolved := [],
             external := ["@/components/Button"] } := by
  decide

/-! ## Claim theorems: call resolution precedence (C2) -/

/-- C2: call-name resolution precedence.  For a candidate name in the
registry: all same-file definitions win when any exist; otherwise all
definitions in files the caller has a resolved internal edge to; otherwise
at most three of the remaining registered definitions.  In particular a name
whose only registered definition lives in an imported file resolves to
exactly that definition. -/
theorem C2_call_resolution_precedence
    (funcName currentFile : String) (reg : List (String × List QId))
    (deps : List String) :
    ((alookup funcName reg).getD [] ≠ [] →
      (((alookup funcName reg).getD []).filter (fun c => c.file = currentFile) ≠ [] →
        resolveCall funcName currentFile reg deps =
          ((alookup funcName reg).getD []).filter (fun c => c.file = currentFile)) ∧
      (((alookup funcName reg).getD []).filter (fun c => c.file = currentFile) = [] →
        ((alookup funcName reg).getD []).filter (fun c => c.file ∈ deps) ≠ [] →
        resolveCall funcName currentFile reg deps =
          ((alookup funcName reg).getD []).filter (fun c => c.file ∈ deps)) ∧
      (((alookup funcName reg).getD []).filter (fun c => c.file = currentFile) = [] →
        ((alookup funcName reg).getD []).filter (fun c => c.file ∈ deps) = [] →
        resolveCall funcName currentFile reg deps =
          ((alookup funcName reg).getD []).take 3 ∧
        (resolveCall funcName currentFile reg deps).length ≤ 3)) ∧
    (∀ c : QId, (alookup funcName reg).getD [] = [c] → c.file ∈ deps →
      resolveCall funcName currentFile reg deps = [c]) := by
  constructor
  · intro hne
    refine ⟨?_, ?_, ?_⟩
    · intro hsf
      rw [resolveCall, if_neg hne, if_pos hsf]
    · intro hsf him
      rw [resolveCall, if_neg hne, if_neg (by simp [hsf]), if_pos him]
    · intro hsf him
      rw [resolveCall, if_neg hne, if_neg (by simp [hsf]), if_neg (by simp [him])]
      exact ⟨rfl, List.length_take_le _ _⟩
  · intro c hc hcd
    by_cases hsf : c.file = currentFile
    · rw [resolveCall, if_neg (by simp [hc]), hc]
      have : (([c] : List QId).filter (fun c => c.file = currentFile)) = [c] := by
        simp [List.filter, hsf]
      rw [if_pos (by rw [this]; simp)]
      exact this
    · have hf1 : (([c] : List QId).filter (fun c => c.file = currentFile)) = [] := by
        simp [List.filter, hsf]
      have hf2 : (([c] : List QId).filter (fun c => decide (c.file ∈ deps))) = [c] := by
        simp [List.filter, hcd]
      rw [resolveCall, if_neg (by simp [hc]), hc, if_neg (by rw [hf1]; simp),
        if_pos (by rw [hf2]; simp)]
      exact hf2

/-- Witness for C2 at the spec's worked example: `findUser`, declared only in
`db/queries.js`, called from `api/handlers.js` which has an internal edge to
`db/queries.js`. -/
theorem C2_witness :
    resolveCall "findUser" "api/handlers.js"
      [("findUser", [⟨"db/queries.js", "findUser"⟩])] ["db/queries.js"] =
      [⟨"db/queries.js", "findUser"⟩] :=
  (C2_call_resolution_precedence "findUser" "api/handlers.js"
      [("findUser", [⟨"db/queries.js", "findUser"⟩])] ["db/queries.js"]).2
    ⟨"db/queries.js", "findUser"⟩ (by decide) (by decide)

/-! ## Lemmas: the call graph -/

theorem mem_updateNode {g : List (QId × CGNode)} {k : QId} {f : CGNode → CGNode}
    {p : QId × CGNode} (h : p ∈ updateNode g k f) :
    p ∈ g ∨ ∃ n, (k, n) ∈ g ∧ p = (k, f n) := by
  obtain ⟨q, hq, hpq⟩ := List.mem_map.1 h
  by_cases hk : q.1 = k
  · rw [if_pos hk] at hpq
    right
    refine ⟨q.2, ?_, hk ▸ hpq.symm⟩
    rw [← hk]
    exact hq
  · rw [if_neg hk] at hpq
    exact Or.inl (hpq ▸ hq)

theorem alookup_updateNode_eq {g : List (QId × CGNode)} {k : QId}
    {f : CGNode → CGNode} :
    alookup k (updateNode g k f) = (alookup k g).map f := by
  induction g with
  | nil => rfl
  | cons p ps ih =>
    by_cases hk : p.1 = k
    · simp [updateNode, alookup, hk]
    · simp only [updateNode, List.map_cons, if_neg hk, alookup]
      exact ih

theorem alookup_updateNode_ne {g : List (QId × CGNode)} {k' k : QId}
    {f : CGNode → CGNode} (hne : k' ≠ k) :
    alookup k' (updateNode g k f) = alookup k' g := by
  induction g with
  | nil => rfl
  | cons p ps ih =>
    by_cases hk : p.1 = k
    · simp only [updateNode, List.map_cons, if_pos hk, alookup]
      rw [if_neg (fun h => hne (h.symm.trans hk)),
        if_neg (fun h => hne (h.symm.trans hk))]
      exact ih
    · simp only [updateNode, List.map_cons, if_neg hk, alookup]
      by_cases hk' : p.1 = k'
      · rw [if_pos hk', if_pos hk']
      · rw [if_neg hk', if_neg hk']
        exact ih

theorem keysOf_updateNode {g : List (QId × CGNode)} {k : QId}
    {f : CGNode → CGNode} :
    (updateNode g k f).map (·.1) = g.map (·.1) := by
  rw [updateNode, List.map_map]
  refine List.map_congr_left ?_
  intro p _
  by_cases hk : p.1 = k
  · simp [hk]
  · simp [hk]

/-- No graph entry lists its own key among its calls. -/
def NoSelf (g : List (QId × CGNode)) : Prop := ∀ p ∈ g, p.1 ∉ p.2.calls

theorem calls_cbAdd {q : QId} {n : CGNode} : (cbAdd q n).calls = n.calls := by
  rw [cbAdd]
  split <;> rfl

theorem mem_calledBy_cbAdd {q : QId} {n : CGNode} : q ∈ (cbAdd q n).calledBy := by
  rw [cbAdd]
  split
  · assumption
  · exact List.mem_append_right _ (List.mem_singleton.2 rfl)

theorem noSelf_fwdStep {caller : QId} {g : List (QId × CGNode)} {t : QId}
    (h : NoSelf g) : NoSelf (fwdStep caller g t) := by
  rw [fwdStep]
  by_cases ht : t ≠ caller
  · rw [if_pos ht]
    intro p hp
    rcases mem_updateNode hp with hp' | ⟨n, hn, hpn⟩
    · exact h p hp'
    · rw [hpn]
      intro hmem
      rw [callsAdd] at hmem
      split at hmem
      · exact h (caller, n) hn hmem
      · rcases List.mem_append.1 hmem with hmem | hmem
        · exact h (caller, n) hn hmem
        · rw [List.mem_singleton] at hmem
          exact ht hmem.symm
  · rw [if_neg ht]
    exact h

theorem noSelf_revStep {q : QId} {g : List (QId × CGNode)} {c : QId}
    (h : NoSelf g) : NoSelf (revStep q g c) := by
  rw [revStep]
  split
  · intro p hp
    rcases mem_updateNode hp with hp' | ⟨n, hn, hpn⟩
    · exact h p hp'
    · rw [hpn]
      intro hmem
      rw [calls_cbAdd] at hmem
      exact h (c, n) hn hmem
  · exact h

theorem noSelf_addCallTargets {g : List (QId × CGNode)} {caller : QId}
    {ts : List QId} (h : NoSelf g) : NoSelf (addCallTargets g caller ts) := by
  rw [addCallTargets]
  split
  · exact foldl_pres (fun s t hs => noSelf_fwdStep hs) ts g h
  · exact h

theorem noSelf_phase2 {reg : List (String × List QId)} {deps : String → List String}
    {g : List (QId × CGNode)} {events : List (QId × String)} (h : NoSelf g) :
    NoSelf (phase2 reg deps g events) := by
  refine foldl_pres (fun s ev hs => ?_) events g h
  rw [callStep]
  split
  · exact noSelf_addCallTargets hs
  · exact hs

theorem noSelf_phase3Step {g : List (QId × CGNode)} {q : QId} (h : NoSelf g) :
    NoSelf (phase3Step g q) := by
  rw [phase3Step]
  split
  · exact h
  · exact foldl_pres (fun s c hs => noSelf_revStep hs) _ g h

theorem noSelf_phase3 {g : List (QId × CGNode)} (h : NoSelf g) :
    NoSelf (phase3 g) :=
  foldl_pres (fun _ _ hs => noSelf_phase3Step hs) _ g h

theorem callsNil_buildRegistry {files : List CGFile} :
    ∀ p ∈ (buildRegistry files).1, p.2.calls = [] := by
  rw [buildRegistry]
  refine foldl_pres
    (P := fun s : List (QId × CGNode) × List (String × List QId) =>
      ∀ p ∈ s.1, p.2.calls = [])
    (fun s fe hs => ?_) files ([], []) (by intro p hp; simp at hp)
  refine foldl_pres
    (P := fun s : List (QId × CGNode) × List (String × List QId) =>
      ∀ p ∈ s.1, p.2.calls = [])
    (fun s' fn hs' => ?_) fe.functions s hs
  intro p hp
  rcases mem_dictInsert hp with hp' | hp'
  · exact hs' p hp'
  · rw [hp']
    rfl

theorem noSelf_buildCallGraph {files : List CGFile} {deps : String → List String}
    {events : List (QId × String)} :
    NoSelf (buildCallGraph files deps events) := by
  refine noSelf_phase3 (noSelf_phase2 ?_)
  intro p hp
  rw [callsNil_buildRegistry p hp]
  exact List.not_mem_nil _

/-! ## Claim theorems: no self-call (C3) -/

/-- C3: in the finished call graph of any run — any file set, any
dependency-edge assignment, and any stream of candidate call events from any
of the four language extractors — no Function Node lists its own qualified
identity among its outgoing call targets. -/
theorem C3_no_self_call
    (files : List CGFile) (deps : String → List String)
    (events : List (QId × String)) (q : QId) (nd : CGNode)
    (h : alookup q (buildCallGraph files deps events) = some nd) :
    q ∉ nd.calls :=
  noSelf_buildCallGraph (q, nd) (alookup_mem h)

/-- Concrete two-file run for the call-graph witnesses: `a.py::f` calls `g`,
declared only in `b.py`. -/
def cgFilesEx : List CGFile :=
  [⟨"a.py", "Python", ["f"]⟩, ⟨"b.py", "Python", ["g"]⟩]

/-- The single candidate-call event of the run: `f`'s body mentions `g`. -/
def cgEventsEx : List (QId × String) := [(⟨"a.py", "f"⟩, "g")]

/-- Empty dependency edges for the witness run. -/
def cgDepsEx : String → List String := fun _ => []

/-- Witness for C3 at the concrete run. -/
theorem C3_witness :
    alookup ⟨"a.py", "f"⟩ (buildCallGraph cgFilesEx cgDepsEx cgEventsEx) =
      some { name := "f", file := "a.py", calls := [⟨"b.py", "g"⟩],
             calledBy := [], language := "Python" } ∧
    (⟨"a.py", "f"⟩ : QId) ∉
      ({ name := "f", file := "a.py", calls := [⟨"b.py", "g"⟩],
         calledBy := [], language := "Python" } : CGNode).calls :=
  ⟨by decide, C3_no_self_call cgFilesEx cgDepsEx cgEventsEx _ _ (by decide)⟩

/-! ## Lemmas: phase 3 mirrors forward edges (towards C4) -/

/-- Simulation relation for phase 3: keys and `calls` fields are preserved,
`called_by` lists only grow. -/
def Sim (g g' : List (QId × CGNode)) : Prop :=
  g'.map (·.1) = g.map (·.1) ∧
  ∀ k n, alookup k g = some n →
    ∃ n', alookup k g' = some n' ∧ n'.calls = n.calls ∧
      ∀ x ∈ n.calledBy, x ∈ n'.calledBy

theorem sim_refl (g : List (QId × CGNode)) : Sim g g :=
  ⟨rfl, fun _ n h => ⟨n, h, rfl, fun _ hx => hx⟩⟩

theorem sim_trans {g1 g2 g3 : List (QId × CGNode)}
    (h12 : Sim g1 g2) (h23 : Sim g2 g3) : Sim g1 g3 := by
  refine ⟨h23.1.trans h12.1, fun k n h => ?_⟩
  obtain ⟨n', hn', hc', hs'⟩ := h12.2 k n h
  obtain ⟨n'', hn'', hc'', hs''⟩ := h23.2 k n' hn'
  exact ⟨n'', hn'', hc''.trans hc', fun x hx => hs'' x (hs' x hx)⟩

theorem sim_revStep {q : QId} {g : List (QId × CGNode)} {c : QId} :
    Sim g (revStep q g c) := by
  rw [revStep]
  split
  · refine ⟨keysOf_updateNode, fun k n h => ?_⟩
    by_cases hk : k = c
    · subst hk
      refine ⟨cbAdd q n, ?_, calls_cbAdd, ?_⟩
      · rw [alookup_updateNode_eq, h]
        rfl
      · intro x hx
        rw [cbAdd]
        split
        · exact hx
        · exact List.mem_append_left _ hx
    · exact ⟨n, by rw [alookup_updateNode_ne hk]; exact h, rfl, fun _ hx => hx⟩
  · exact sim_refl g

theorem sim_revStep_fold {q : QId} {cs : List QId} {g : List (QId × CGNode)} :
    Sim g (cs.foldl (revStep q) g) :=
  foldl_rel sim_refl (fun _ _ _ => sim_trans) (fun _ _ => sim_revStep) cs g

theorem sim_phase3Step {g : List (QId × CGNode)} {q : QId} :
    Sim g (phase3Step g q) := by
  rw [phase3Step]
  split
  · exact sim_refl g
  · exact sim_revStep_fold

theorem sim_phase3Step_fold {l : List QId} {g : List (QId × CGNode)} :
    Sim g (l.foldl phase3Step g) :=
  foldl_rel sim_refl (fun _ _ _ => sim_trans) (fun _ _ => sim_phase3Step) l g

/-- Transfer a lookup in the evolved graph back to the original graph,
keeping the `calls` field. -/
theorem sim_lookup_rev {g g' : List (QId × CGNode)} {k : QId} {n' : CGNode}
    (hs : Sim g g') (h' : alookup k g' = some n') :
    ∃ n, alookup k g = some n ∧ n.calls = n'.calls := by
  have hk : k ∈ g'.map (·.1) := alookup_isSome_iff_mem.1 (by rw [h']; rfl)
  rw [hs.1] at hk
  obtain ⟨n, hn⟩ := Option.isSome_iff_exists.1 (alookup_isSome_iff_mem.2 hk)
  obtain ⟨n'', hn'', hcalls, _⟩ := hs.2 k n hn
  rw [h'] at hn''
  exact ⟨n, hn, (Option.some.inj hn'' ▸ hcalls).symm⟩

/-- `a`'s forward edges are mirrored: every call target of `a` that is a key
of the graph lists `a` among its callers. -/
def Est (g : List (QId × CGNode)) (a : QId) : Prop :=
  ∀ nd, alookup a g = some nd → ∀ b ∈ nd.calls, ∀ nb, alookup b g = some nb →
    a ∈ nb.calledBy

theorem est_of_sim {g g' : List (QId × CGNode)} {a : QId}
    (hs : Sim g g') (he : Est g a) : Est g' a := by
  intro nd' hnd' b hb nb' hnb'
  obtain ⟨nd, hnd, hcalls⟩ := sim_lookup_rev hs hnd'
  obtain ⟨nb, hnb, _⟩ := sim_lookup_rev hs hnb'
  obtain ⟨nb'', hnb'', _, hsub⟩ := hs.2 b nb hnb
  rw [hnb'] at hnb''
  exact Option.some.inj hnb'' ▸ hsub a (he nd hnd b (hcalls ▸ hb) nb hnb)

/-- After folding the reverse-edge step of `q` over a list of callees, every
callee in the list that is a key of the graph lists `q` among its callers. -/
theorem est_calls_fold (q : QId) :
    ∀ (cs : List QId) (g : List (QId × CGNode)) (b : QId), b ∈ cs →
      ∀ nb, alookup b (cs.foldl (revStep q) g) = some nb → q ∈ nb.calledBy := by
  intro cs
  induction cs with
  | nil => intro g b hb; simp at hb
  | cons c rest ih =>
    intro g b hb nb hnb
    rw [List.foldl_cons] at hnb
    rcases List.mem_cons.1 hb with hbc | hbr
    · subst hbc
      cases hc : alookup b g with
      | none =>
        have hrev : revStep q g b = g := by
          rw [revStep, if_neg (by rw [hc]; simp)]
        rw [hrev] at hnb
        have hmem : b ∈ (rest.foldl (revStep q) g).map (·.1) :=
          alookup_isSome_iff_mem.1 (by rw [hnb]; rfl)
        rw [(@sim_revStep_fold q rest g).1] at hmem
        have := alookup_isSome_iff_mem.2 hmem
        rw [hc] at this
        simp at this
      | some n =>
        have hrev : alookup b (revStep q g b) = some (cbAdd q n) := by
          rw [revStep, if_pos (by rw [hc]; simp), alookup_updateNode_eq, hc]
          rfl
        obtain ⟨n', hn', _, hsub⟩ :=
          (@sim_revStep_fold q rest (revStep q g b)).2 b _ hrev
        rw [hnb] at hn'
        exact Option.some.inj hn' ▸ hsub q mem_calledBy_cbAdd
    · exact ih (revStep q g c) b hbr nb hnb

/-- Processing an entry in phase 3 establishes its own mirroring property. -/
theorem est_phase3Step_self {g : List (QId × CGNode)} {q : QId} :
    Est (phase3Step g q) q := by
  intro nd' hnd' b hb nb' hnb'
  cases hq : alookup q g with
  | none =>
    rw [phase3Step, hq] at hnd'
    rw [hq] at hnd'
    cases hnd'
  | some nd =>
    rw [phase3Step, hq] at hnd' hnb'
    obtain ⟨n'', hn'', hcalls, _⟩ := sim_revStep_fold.2 q nd hq
    rw [hnd'] at hn''
    have hbnd : b ∈ nd.calls := by
      rw [← hcalls, ← Option.some.inj hn'']
      exact hb
    exact est_calls_fold q nd.calls g b hbnd nb' hnb'

theorem est_foldl (l : List QId) :
    ∀ (g : List (QId × CGNode)) (a : QId), a ∈ l →
      Est (l.foldl phase3Step g) a := by
  induction l with
  | nil => intro g a ha; simp at ha
  | cons x rest ih =>
    intro g a ha
    rw [List.foldl_cons]
    rcases List.mem_cons.1 ha with h | h
    · subst h
      exact est_of_sim sim_phase3Step_fold est_phase3Step_self
    · exact ih _ a h

/-- Phase 3 makes forward and reverse adjacency mutually consistent, from any
starting graph. -/
theorem phase3_consistent (g : List (QId × CGNode)) (a b : QId)
    (na nb : CGNode) (ha : alookup a (phase3 g) = some na)
    (hb : b ∈ na.calls) (hbl : alookup b (phase3 g) = some nb) :
    a ∈ nb.calledBy := by
  have ha' : alookup a ((g.map (·.1)).foldl phase3Step g) = some na := ha
  have hbl' : alookup b ((g.map (·.1)).foldl phase3Step g) = some nb := hbl
  have hmem : a ∈ g.map (·.1) := by
    have h1 : a ∈ ((g.map (·.1)).foldl phase3Step g).map (·.1) :=
      alookup_isSome_iff_mem.1 (by rw [ha']; rfl)
    rw [(sim_phase3Step_fold (l := g.map (·.1)) (g := g)).1] at h1
    exact h1
  exact est_foldl (g.map (·.1)) g a hmem na ha' b hb nb hbl'

/-! ## Claim theorems: mutual adjacency consistency (C4) -/

/-- C4: in the finished call graph of every run, if node `B` appears in node
`A`'s outgoing calls list, then `A` appears in `B`'s `called_by` list. -/
theorem C4_forward_reverse_consistent
    (files : List CGFile) (deps : String → List String)
    (events : List (QId × String)) (a b : QId) (na nb : CGNode)
    (ha : alookup a (buildCallGraph files deps events) = some na)
    (hb : b ∈ na.calls)
    (hbl : alookup b (buildCallGraph files deps events) = some nb) :
    a ∈ nb.calledBy :=
  phase3_consistent _ a b na nb ha hb hbl

/-- Witness for C4 at the concrete run: `a.py::f` lists `b.py::g` as a call
target, and `b.py::g` lists `a.py::f` among its callers. -/
theorem C4_witness :
    alookup ⟨"a.py", "f"⟩ (buildCallGraph cgFilesEx cgDepsEx cgEventsEx) =
      some { name := "f", file := "a.py", calls := [⟨"b.py", "g"⟩],
             calledBy := [], language := "Python" } ∧
    (⟨"a.py", "f"⟩ : QId) ∈
      ({ name := "g", file := "b.py", calls := [],
         calledBy := [⟨"a.py", "f"⟩], language := "Python" } : CGNode).calledBy :=
  ⟨by decide,
   C4_forward_reverse_consistent cgFilesEx cgDepsEx cgEventsEx
     ⟨"a.py", "f"⟩ ⟨"b.py", "g"⟩
     { name := "f", file := "a.py", calls := [⟨"b.py", "g"⟩],
       calledBy := [], language := "Python" }
     { name := "g", file := "b.py", calls := [],
       calledBy := [⟨"a.py", "f"⟩], language := "Python" }
     (by decide) (by decide) (by decide)⟩

/-! ## Claim theorems: per-file extraction failure (C7) -/

/-- Extractor oracle bundle whose Python parser always fails; the other
scanners return empty results. -/
def failingExtractors : Extractors :=
  { pyParse := fun _ => none
    js := fun _ => (⟨[], [], []⟩, false)
    java := fun _ => (⟨[], [], []⟩, false)
    go := fun _ => (⟨[], [], []⟩, false) }

/-- A record with an `analyzeAll` accumulator membership lemma: a file whose
analysis succeeds is recorded no matter what happens to its siblings. -/
theorem mem_analyzeAll_aux (E : Extractors) :
    ∀ (inputs : List (String × Option (String × Nat)))
      (acc : List (String × FileMeta)) (pr : String × Option (String × Nat))
      (m : FileMeta), pr ∈ inputs → analyzeFile E pr.1 pr.2 = some m →
      (pr.1, m) ∈ inputs.foldl
        (fun acc pr =>
          match analyzeFile E pr.1 pr.2 with
          | some m => acc ++ [(pr.1, m)]
          | none => acc) acc := by
  intro inputs
  induction inputs with
  | nil => intro acc pr m hpr; simp at hpr
  | cons x rest ih =>
    intro acc pr m hpr hm
    rw [List.foldl_cons]
    rcases List.mem_cons.1 hpr with h | h
    · subst h
      rw [hm]
      refine foldl_pres
        (P := fun s : List (String × FileMeta) => (pr.1, m) ∈ s)
        (fun s a hs => ?_) rest _ (List.mem_append_right _ (List.mem_singleton.2 rfl))
      dsimp only
      split
      · exact List.mem_append_left _ hs
      · exact hs
    · exact ih _ pr m h hm

/-- C7 (amended): a file whose content was read but failed to parse still
yields a FileRecord carrying its line count and byte size with empty
structural fields, and one file's failure never suppresses another file's
record; but a file whose bytes cannot be read yields no record at all — it
is skipped, not recorded with metadata. -/
theorem C7_parse_failure_keeps_metadata :
    (∀ (E : Extractors) (path content : String) (size : Nat),
      E.pyParse content = none → strLower (suffixOf path) = ".py" →
      analyzeFile E path (some (content, size)) =
        some { extension := ".py", language := "Python",
               lines := lineCount content, size := size,
               imports := [], functions := [], classes := [], hasMain := false,
               content := contentExcerpt content,
               contentTruncated := decide (content.length > maxContentSize) }) ∧
    (∀ (E : Extractors) (path : String), analyzeFile E path none = none) ∧
    (∀ (E : Extractors) (inputs : List (String × Option (String × Nat)))
       (pr : String × Option (String × Nat)) (m : FileMeta),
      pr ∈ inputs → analyzeFile E pr.1 pr.2 = some m →
      (pr.1, m) ∈ analyzeAll E inputs) := by
  refine ⟨?_, ?_, ?_⟩
  · intro E path content size hparse hext
    rw [analyzeFile, hext]
    simp only [if_pos rfl, analyzePython, hparse]
    rfl
  · intro E path
    rfl
  · intro E inputs pr m hpr hm
    exact mem_analyzeAll_aux E inputs [] pr m hpr hm

/-- Witness for the amended C7: in a two-file run, the unparseable `bad.py`
still yields a metadata-only record, and the sibling `ok.py` is recorded. -/
theorem C7_witness :
    analyzeFile failingExtractors "bad.py" (some ("x(", 5)) =
      some { extension := ".py", language := "Python", lines := 1, size := 5,
             imports := [], functions := [], classes := [], hasMain := false,
             content := "x(", contentTruncated := false } ∧
    ("ok.py",
      { extension := ".py", language := "Python", lines := 1, size := 3,
        imports := [], functions := [], classes := [], hasMain := false,
        content := "y=1", contentTruncated := false }) ∈
      analyzeAll failingExtractors
        [("bad.py", some ("x(", 5)), ("unreadable.py", none),
         ("ok.py", some ("y=1", 3))] := by
  constructor
  · have h := C7_parse_failure_keeps_metadata.1 failingExtractors "bad.py" "x(" 5
      rfl (by decide)
    rw [h]
    rfl
  · have h := C7_parse_failure_keeps_metadata.2.2 failingExtractors
      [("bad.py", some ("x(", 5)), ("unreadable.py", none),
       ("ok.py", some ("y=1", 3))]
      ("ok.py", some ("y=1", 3))
      { extension := ".py", language := "Python", lines := 1, size := 3,
        imports := [], functions := [], classes := [], hasMain := false,
        content := "y=1", contentTruncated := false }
      (by decide) (by decide)
    exact h

/-- Counterexample to C7 as stated: a file whose bytes cannot be read
(`read_text`/`stat` raised, modelled by the `none` read outcome) produces no
FileRecord at all — the run's record list contains no entry for it — rather
than a record with line and size metadata. -/
theorem C7_counterexample :
    analyzeFile failingExtractors "unreadable.py" none = none ∧
    analyzeAll failingExtractors
        [("unreadable.py", none), ("ok.py", some ("y=1", 3))] =
      [("ok.py",
        { extension := ".py", language := "Python", lines := 1, size := 3,
          imports := [], functions := [], classes := [], hasMain := false,
          content := "y=1", contentTruncated := false })] := by
  constructor
  · rfl
  · rfl

/-! ## Lemmas: layer arbitration (towards C8) -/

/-- The highest score in a scored rule list. -/
def maxScoreOf (l : List (String × Nat)) : Nat := l.foldr (fun p m => max p.2 m) 0

/-- The earliest-declared rule attaining the highest score (the claim's
reading of "highest total wins, first-declared wins ties"). -/
def firstAtMax (l : List (String × Nat)) : String :=
  match l.find? (fun p => p.2 = maxScoreOf l) with
  | some p => p.1
  | none => "other"

/-- The layer the code's arbitration actually assigns, stated
declaratively: the earliest rule attaining the highest score when that
score is positive, the default `other` otherwise. -/
def specArgmax (l : List (String × Nat)) : String :=
  if 0 < maxScoreOf l then firstAtMax l else "other"

theorem firstAtMax_cons_of_lt {n : String} {s : Nat} {t : List (String × Nat)}
    (h : s < maxScoreOf t) : firstAtMax ((n, s) :: t) = firstAtMax t := by
  have hmax : maxScoreOf ((n, s) :: t) = maxScoreOf t :=
    max_eq_right (Nat.le_of_lt h)
  rw [firstAtMax, hmax, List.find?_cons_of_neg _ (by simp; omega)]
  rfl

theorem firstAtMax_cons_of_ge {n : String} {s : Nat} {t : List (String × Nat)}
    (h : maxScoreOf t ≤ s) : firstAtMax ((n, s) :: t) = n := by
  have hmax : maxScoreOf ((n, s) :: t) = s := max_eq_left h
  rw [firstAtMax, hmax, List.find?_cons_of_pos _ (by simp)]

theorem pickLayer_spec :
    ∀ (l : List (String × Nat)) (best : String) (bs : Nat),
      pickLayer l best bs = if bs < maxScoreOf l then firstAtMax l else best := by
  intro l
  induction l with
  | nil =>
    intro best bs
    simp [pickLayer, maxScoreOf]
  | cons hd t ih =>
    intro best bs
    obtain ⟨n, s⟩ := hd
    rw [pickLayer]
    by_cases hs : s > bs
    · rw [if_pos hs, ih]
      by_cases hsM : s < maxScoreOf t
      · have hc1 : bs < maxScoreOf ((n, s) :: t) := by
          have hmax : maxScoreOf ((n, s) :: t) = maxScoreOf t :=
            max_eq_right (Nat.le_of_lt hsM)
          rw [hmax]
          exact Nat.lt_trans hs hsM
        rw [if_pos hsM, if_pos hc1, firstAtMax_cons_of_lt hsM]
      · have hge : maxScoreOf t ≤ s := Nat.not_lt.1 hsM
        have hc1 : bs < maxScoreOf ((n, s) :: t) := by
          have hmax : maxScoreOf ((n, s) :: t) = s := max_eq_left hge
          rw [hmax]
          exact hs
        rw [if_neg hsM, if_pos hc1, firstAtMax_cons_of_ge hge]
    · rw [if_neg hs, ih]
      have hsbs : s ≤ bs := Nat.not_lt.1 hs
      by_cases hbM : bs < maxScoreOf t
      · have hc1 : bs < maxScoreOf ((n, s) :: t) :=
          Nat.lt_of_lt_of_le hbM (le_max_right s (maxScoreOf t))
        have hsM : s < maxScoreOf t := Nat.lt_of_le_of_lt hsbs hbM
        rw [if_pos hbM, if_pos hc1, firstAtMax_cons_of_lt hsM]
      · have hc2 : ¬ bs < maxScoreOf ((n, s) :: t) := by
          have hmax : maxScoreOf ((n, s) :: t) = max s (maxScoreOf t) := rfl
          rw [hmax]
          exact Nat.not_lt.2 (max_le hsbs (Nat.not_lt.1 hbM))
        rw [if_neg hbM, if_neg hc2]

/-! ## Claim theorems: layer assignment (C8) -/

/-- C8 (amended): layer assignment is deterministic score arbitration — the
assigned layer is the earliest-declared rule attaining the highest
accumulated score whenever some rule scores positively; a component on which
every rule scores zero receives the default layer `other` (which is not a
rule of the table).  Components with identical ids and extension sets
receive the same layer. -/
theorem C8_layer_assignment_argmax (allFw : List String) (compId : String)
    (exts : List String) :
    (classifyOne allFw compId exts =
      specArgmax (layerRules.map (fun p =>
        (p.1, scoreFor allFw p.1 p.2 (normSlash (strLower compId)) exts)))) ∧
    (∀ (c2 : String) (e2 : List String), compId = c2 → exts = e2 →
      classifyOne allFw compId exts = classifyOne allFw c2 e2) := by
  constructor
  · rw [classifyOne, pickLayer_spec, specArgmax]
  · intro c2 e2 h1 h2
    rw [h1, h2]

/-- Witness for the amended C8: the `api` component of the spec's example is
assigned the `api` layer, and determinism holds at that input. -/
theorem C8_witness :
    (classifyOne [] "api" [".py"] = classifyOne [] "api" [".py"]) ∧
    classifyOne [] "api" [".py"] = "api" :=
  ⟨(C8_layer_assignment_argmax [] "api" [".py"]).2 "api" [".py"] rfl rfl,
   by rw [(C8_layer_assignment_argmax [] "api" [".py"]).1]; decide⟩

/-- Counterexample to C8 as stated: on a component where every rule of the
table scores zero, all rules tie at the highest score, so the claim assigns
the earliest-declared rule (`frontend`); the code assigns the default
`other`, which is not a rule of the table at all. -/
theorem C8_counterexample :
    classifyOne [] "zzz" [".c"] = "other" ∧
    layerRules.map (fun p =>
        scoreFor [] p.1 p.2 (normSlash (strLower "zzz")) [".c"]) =
      [0, 0, 0, 0, 0, 0, 0, 0] ∧
    layerRules.map (·.1) =
      ["frontend", "api", "services", "data", "config", "tests",
       "middleware", "utils"] ∧
    ("other" : String) ∉
      ["frontend", "api", "services", "data", "config", "tests",
       "middleware", "utils"] := by
  decide

/-! ## Claim theorems: brace-span detection (C10) -/

theorem fbeAux_le (content : List Char) :
    ∀ (fuel i : Nat) (d : Int) (st : Bool) (sc : Option Char),
      fbeAux content fuel i d st sc ≤ content.length := by
  intro fuel
  induction fuel with
  | zero => intro i d st sc; exact Nat.le_refl _
  | succ fuel ih =>
    intro i d st sc
    rw [fbeAux]
    by_cases h : i < content.length
    · rw [dif_pos h]
      dsimp only
      repeat' split
      all_goals first
        | exact ih _ _ _ _
        | omega
    · rw [dif_neg h]

/-- C10: brace-span detection is total and bounded — for every content and
every start position the scan terminates with a result of at most the
content's length, and on inputs whose braces never rebalance or whose string
literal is unterminated it returns exactly the content length. -/
theorem C10_brace_scan_total_and_bounded :
    (∀ (content : String) (start : Nat),
      findBraceEnd content start ≤ content.length) ∧
    findBraceEnd "\x7b(" 0 = ("\x7b(" : String).length ∧
    findBraceEnd "\x7b \x22abc" 0 = ("\x7b \x22abc" : String).length := by
  refine ⟨?_, by decide, by decide⟩
  intro content start
  exact fbeAux_le content.toList _ start 0 false none

end CodeExplorer
